import Mathlib

/-!
Verification development for the FastAPI-CSV repository.

The embedding below follows the source files:
* `app/services/csv_processor.py` (`process_csv_async`) and its near-duplicate
  `app/main.py` variant (which additionally awaits `queue.join()` before
  marking a job completed — in the services variant that line is commented out);
* `app/core/worker_pool.py` (`WorkerPool.db_worker`, the bounded `asyncio.Queue`
  with `maxsize = MAX_QUEUE_SIZE`, and the `processing_status` dict);
* `app/api/v1/endpoints/user.py` (`upload_csv`);
* `app/core/config.py` (`CHUNK_SIZE`, `MAX_QUEUE_SIZE`, `NUM_WORKERS`).

Concurrency is embedded as a small-step transition system: one `Action` per
atomic producer/worker step, a `Config` holding the shared queue, the
`processing_status` registry and each producer's remaining work.  Python dict
mutation is embedded as association-list update; `asyncio.Queue` is a list with
its `maxsize` guard and its `unfinished` task counter (incremented by `put`,
decremented by `task_done`); a step whose underlying `await` would block is not
enabled (the step function returns `none`).
-/

namespace FastApiCsv

/-- One decoded CSV row, as constructed in `process_csv_async`:
`User(firstName=row['FirstName'], lastName=row['LastName'], age=row['Age'],
email=row['Email'])`. -/
structure Record where
  firstName : String
  lastName : String
  age : Int
  email : String
deriving DecidableEq

/-- From `app/core/config.py`: `CHUNK_SIZE: int = 1000`. -/
def CHUNK_SIZE : Nat := 1000

/-- From `app/core/config.py`: `MAX_QUEUE_SIZE: int = 10`. -/
def MAX_QUEUE_SIZE : Nat := 10

/-- From `app/core/config.py`: `NUM_WORKERS: int = 5`. -/
def NUM_WORKERS : Nat := 5

/-- `total_chunks = (len(df) + settings.CHUNK_SIZE - 1) // settings.CHUNK_SIZE`
from `process_csv_async` (integer ceiling division). -/
def totalChunks (n c : Nat) : Nat := (n + c - 1) / c

/-- Fuel-driven chunking loop; `fuel` is an upper bound on the list length so
that the definition is structural (and hence evaluates inside the kernel). -/
def chunksGo {α : Type} (c : Nat) : Nat → List α → List (List α)
  | _, [] => []
  | 0, _ :: _ => []
  | fuel + 1, x :: xs => (x :: xs).take c :: chunksGo c fuel ((x :: xs).drop c)

/-- The batcher: `pd.read_csv(file_stream, chunksize=CHUNK_SIZE)` yields the
record list split into successive chunks of `c` records (last chunk possibly
shorter). -/
def chunksOf {α : Type} (c : Nat) (l : List α) : List (List α) :=
  chunksGo c l.length l

theorem totalChunks_zero (c : Nat) (hc : c ≠ 0) : totalChunks 0 c = 0 := by
  have h1 : c - 1 < c := by omega
  simp only [totalChunks, Nat.zero_add]
  exact Nat.div_eq_of_lt h1

theorem totalChunks_succ (n c : Nat) (hc : c ≠ 0) (hn : n ≠ 0) :
    totalChunks n c = totalChunks (n - c) c + 1 := by
  have hrw : n + c - 1 = (n - 1) + c := by omega
  have h1 : totalChunks n c = (n - 1) / c + 1 := by
    rw [totalChunks, hrw, Nat.add_div_right _ (by omega)]
  by_cases hcle : n ≤ c
  · have h2 : n - c = 0 := by omega
    have h3 : (n - 1) / c = 0 := Nat.div_eq_of_lt (by omega)
    rw [h1, h2, totalChunks_zero c hc, h3]
  · have h2 : n - c + c - 1 = (n - c - 1) + c := by omega
    have h3 : n - 1 = (n - c - 1) + c := by omega
    rw [h1, totalChunks, h2, Nat.add_div_right _ (by omega), h3,
      Nat.add_div_right _ (by omega)]

theorem chunksGo_length {α : Type} (c : Nat) (hc : c ≠ 0) :
    ∀ (fuel : Nat) (l : List α), l.length ≤ fuel →
      (chunksGo c fuel l).length = totalChunks l.length c := by
  intro fuel
  induction fuel with
  | zero =>
    intro l hl
    have : l = [] := List.length_eq_zero.mp (by omega)
    subst this
    simp [chunksGo, totalChunks_zero c hc]
  | succ fuel ih =>
    intro l hl
    match l with
    | [] => simp [chunksGo, totalChunks_zero c hc]
    | x :: xs =>
      have hdrop : ((x :: xs).drop c).length ≤ fuel := by
        simp only [List.length_drop, List.length_cons]
        simp only [List.length_cons] at hl
        omega
      simp only [chunksGo, List.length_cons]
      rw [ih _ hdrop]
      rw [totalChunks_succ (xs.length + 1) c hc (by omega)]
      simp [List.length_drop]

theorem chunksGo_mem_length_le {α : Type} (c : Nat) :
    ∀ (fuel : Nat) (l : List α), ∀ b ∈ chunksGo c fuel l, b.length ≤ c := by
  intro fuel
  induction fuel with
  | zero =>
    intro l b hb
    match l with
    | [] => simp [chunksGo] at hb
    | x :: xs => simp [chunksGo] at hb
  | succ fuel ih =>
    intro l b hb
    match l with
    | [] => simp [chunksGo] at hb
    | x :: xs =>
      simp only [chunksGo, List.mem_cons] at hb
      rcases hb with hb | hb
      · subst hb
        simp only [List.length_take]
        exact Nat.min_le_left c (x :: xs).length
      · exact ih _ b hb

theorem chunksGo_join {α : Type} (c : Nat) (hc : c ≠ 0) :
    ∀ (fuel : Nat) (l : List α), l.length ≤ fuel →
      (chunksGo c fuel l).join = l := by
  intro fuel
  induction fuel with
  | zero =>
    intro l hl
    have : l = [] := List.length_eq_zero.mp (by omega)
    subst this
    simp [chunksGo]
  | succ fuel ih =>
    intro l hl
    match l with
    | [] => simp [chunksGo]
    | x :: xs =>
      have hdrop : ((x :: xs).drop c).length ≤ fuel := by
        simp only [List.length_drop, List.length_cons]
        simp only [List.length_cons] at hl
        omega
      simp only [chunksGo, List.join_cons, ih _ hdrop]
      exact List.take_append_drop c (x :: xs)

theorem chunksGo_dropLast {α : Type} (c : Nat) (hc : c ≠ 0) :
    ∀ (fuel : Nat) (l : List α), l.length ≤ fuel →
      ∀ b ∈ (chunksGo c fuel l).dropLast, b.length = c := by
  intro fuel
  induction fuel with
  | zero =>
    intro l hl b hb
    have : l = [] := List.length_eq_zero.mp (by omega)
    subst this
    simp [chunksGo] at hb
  | succ fuel ih =>
    intro l hl b hb
    match l with
    | [] => simp [chunksGo] at hb
    | x :: xs =>
      have hdrop : ((x :: xs).drop c).length ≤ fuel := by
        simp only [List.length_drop, List.length_cons]
        simp only [List.length_cons] at hl
        omega
      simp only [chunksGo] at hb
      match hrest : chunksGo c fuel ((x :: xs).drop c) with
      | [] =>
        rw [hrest] at hb
        simp at hb
      | g :: gs =>
        rw [hrest] at hb
        rw [List.dropLast_cons₂] at hb
        rcases List.mem_cons.mp hb with hb | hb
        · subst hb
          have hne : (x :: xs).drop c ≠ [] := by
            intro hnil
            rw [hnil] at hrest
            simp [chunksGo] at hrest
          have hlen : c ≤ (x :: xs).length := by
            by_contra hlt
            exact hne (List.drop_eq_nil_of_le (by omega))
          simp only [List.length_cons] at hlen
          simp only [List.length_take, List.length_cons]
          omega
        · rw [← hrest] at hb
          exact ih _ hdrop b hb

theorem chunksOf_length {α : Type} (c : Nat) (hc : c ≠ 0) (l : List α) :
    (chunksOf c l).length = totalChunks l.length c :=
  chunksGo_length c hc l.length l (Nat.le_refl _)

theorem chunksOf_mem_length_le {α : Type} (c : Nat) (l : List α) :
    ∀ b ∈ chunksOf c l, b.length ≤ c :=
  chunksGo_mem_length_le c l.length l

theorem chunksOf_join {α : Type} (c : Nat) (hc : c ≠ 0) (l : List α) :
    (chunksOf c l).join = l :=
  chunksGo_join c hc l.length l (Nat.le_refl _)

theorem chunksOf_dropLast {α : Type} (c : Nat) (hc : c ≠ 0) (l : List α) :
    ∀ b ∈ (chunksOf c l).dropLast, b.length = c :=
  chunksGo_dropLast c hc l.length l (Nat.le_refl _)

/-- Lengths of the successive chunks, as a pure arithmetic recursion mirroring
`chunksGo` (used to evaluate concrete instances cheaply). -/
def lensGo (c : Nat) : Nat → Nat → List Nat
  | _, 0 => []
  | 0, _ + 1 => []
  | fuel + 1, n + 1 => min c (n + 1) :: lensGo c fuel (n + 1 - c)

theorem chunksGo_map_length {α : Type} (c : Nat) :
    ∀ (fuel : Nat) (l : List α),
      (chunksGo c fuel l).map List.length = lensGo c fuel l.length := by
  intro fuel
  induction fuel with
  | zero =>
    intro l
    match l with
    | [] => simp [chunksGo, lensGo]
    | x :: xs => simp [chunksGo, lensGo]
  | succ fuel ih =>
    intro l
    match l with
    | [] => simp [chunksGo, lensGo]
    | x :: xs =>
      simp only [chunksGo, List.map_cons, ih, List.length_take, List.length_drop,
        List.length_cons, lensGo]

theorem chunksOf_map_length {α : Type} (c : Nat) (l : List α) :
    (chunksOf c l).map List.length = lensGo c l.length l.length :=
  chunksGo_map_length c l.length l

/-- A fixed sample row used for concrete instances. -/
def sampleRecord : Record :=
  { firstName := "Jane", lastName := "Doe", age := 30, email := "jane@example.com" }

/-- Claim C4: for every record sequence of length `n` and fixed chunk size, the
batcher emits `ceil(n / chunkSize)` batches, each of at most `chunkSize`
records, only the last possibly smaller, and `total_chunks` is set to the same
ceiling; in particular a 2500-row input with chunk size 1000 yields
`total_chunks = 3` and a final batch of 500 records. -/
theorem C4_batcher (c : Nat) (l : List Record) (hc : c ≠ 0) :
    (chunksOf c l).length = totalChunks l.length c ∧
    (∀ b ∈ chunksOf c l, b.length ≤ c) ∧
    (∀ b ∈ (chunksOf c l).dropLast, b.length = c) ∧
    (chunksOf c l).join = l ∧
    totalChunks 2500 1000 = 3 ∧
    (chunksOf 1000 (List.replicate 2500 sampleRecord)).map List.length
      = [1000, 1000, 500] := by
  refine ⟨chunksOf_length c hc l, chunksOf_mem_length_le c l,
    chunksOf_dropLast c hc l, chunksOf_join c hc l, by decide, ?_⟩
  rw [chunksOf_map_length, List.length_replicate]
  decide

/-- Witness for C4 at chunk size 1000 on a concrete 2500-record input. -/
theorem C4_batcher_witness :
    (1000 : Nat) ≠ 0 ∧
    ((chunksOf 1000 (List.replicate 2500 sampleRecord)).length
        = totalChunks (List.replicate 2500 sampleRecord).length 1000 ∧
      (∀ b ∈ chunksOf 1000 (List.replicate 2500 sampleRecord), b.length ≤ 1000) ∧
      (∀ b ∈ (chunksOf 1000 (List.replicate 2500 sampleRecord)).dropLast,
        b.length = 1000) ∧
      (chunksOf 1000 (List.replicate 2500 sampleRecord)).join
        = List.replicate 2500 sampleRecord ∧
      totalChunks 2500 1000 = 3 ∧
      (chunksOf 1000 (List.replicate 2500 sampleRecord)).map List.length
        = [1000, 1000, 500]) :=
  ⟨by decide, C4_batcher 1000 (List.replicate 2500 sampleRecord) (by decide)⟩

/-- One queue element: `(users, file_id)` as put by
`await worker_pool.queue.put((users, file_id))`. -/
abbrev Batch := List Record

abbrev Entry := Batch × String

/-- The `"status"` field of a `processing_status` entry: `"processing"`,
`"completed"` or `"failed"`. -/
inductive JobState
  | processing
  | completed
  | failed
deriving DecidableEq

/-- One value of the `processing_status` dict, as initialised in
`process_csv_async` and mutated by `db_worker`. -/
structure JobStatus where
  filename : String
  total_chunks : Nat
  processed_chunks : Nat
  progress : Rat
  status : JobState
  error : Option String
deriving DecidableEq

/-- Python dict lookup `d[k]` (as an Option), on the association-list embedding
of `processing_status`. -/
def lookupKey (l : List (String × JobStatus)) (k : String) : Option JobStatus :=
  match l with
  | [] => none
  | (k2, v) :: rest => if k2 = k then some v else lookupKey rest k

/-- Python dict assignment `d[k] = v`: replace in place if the key exists,
append otherwise. -/
def setKey (l : List (String × JobStatus)) (k : String) (v : JobStatus) :
    List (String × JobStatus) :=
  match l with
  | [] => [(k, v)]
  | (k2, v2) :: rest => if k2 = k then (k, v) :: rest else (k2, v2) :: setKey rest k v

/-- In-place mutation of the nested status dict (`d[k]["field"] = ...`), a
no-op when the key is absent; callers that would raise `KeyError` on an absent
key check presence separately. -/
def updKey (l : List (String × JobStatus)) (k : String) (f : JobStatus → JobStatus) :
    List (String × JobStatus) :=
  match l with
  | [] => []
  | (k2, v2) :: rest => if k2 = k then (k2, f v2) :: rest else (k2, v2) :: updKey rest k f

theorem lookupKey_setKey_self (l : List (String × JobStatus)) (k : String) (v : JobStatus) :
    lookupKey (setKey l k v) k = some v := by
  induction l with
  | nil => simp [setKey, lookupKey]
  | cons hd tl ih =>
    obtain ⟨k2, v2⟩ := hd
    by_cases h : k2 = k
    · simp [setKey, lookupKey, h]
    · simp [setKey, lookupKey, h, ih]

theorem lookupKey_setKey_ne (l : List (String × JobStatus)) (k k2 : String) (v : JobStatus)
    (h : k ≠ k2) : lookupKey (setKey l k v) k2 = lookupKey l k2 := by
  induction l with
  | nil => simp [setKey, lookupKey, h]
  | cons hd tl ih =>
    obtain ⟨k3, v3⟩ := hd
    by_cases h3 : k3 = k
    · subst h3
      simp [setKey, lookupKey, h]
    · simp only [setKey, if_neg h3]
      by_cases h4 : k3 = k2
      · simp [lookupKey, h4]
      · simp [lookupKey, h4, ih]

theorem lookupKey_updKey_self (l : List (String × JobStatus)) (k : String)
    (f : JobStatus → JobStatus) :
    lookupKey (updKey l k f) k = (lookupKey l k).map f := by
  induction l with
  | nil => simp [updKey, lookupKey]
  | cons hd tl ih =>
    obtain ⟨k2, v2⟩ := hd
    by_cases h : k2 = k
    · simp [updKey, lookupKey, h]
    · simp [updKey, lookupKey, h, ih]

theorem lookupKey_updKey_ne (l : List (String × JobStatus)) (k k2 : String)
    (f : JobStatus → JobStatus) (h : k ≠ k2) :
    lookupKey (updKey l k f) k2 = lookupKey l k2 := by
  induction l with
  | nil => simp [updKey, lookupKey]
  | cons hd tl ih =>
    obtain ⟨k3, v3⟩ := hd
    by_cases h3 : k3 = k
    · subst h3
      simp [updKey, lookupKey, h]
    · simp only [updKey, if_neg h3]
      by_cases h4 : k3 = k2
      · simp [lookupKey, h4]
      · simp [lookupKey, h4, ih]

/-- Stage of one `process_csv_async` invocation (the producer coroutine for one
job): about to create its `processing_status` entry, in the chunk-enqueue loop,
or past the final `"status" = "completed"` assignment. -/
inductive Stage
  | toRegister
  | enqueuing
  | finished
deriving DecidableEq

/-- One producer coroutine: its `file_id`, `filename`, the `total_chunks` value
computed from the first `pd.read_csv`, and the chunks still to be enqueued. -/
structure Producer where
  fileId : String
  filename : String
  total : Nat
  chunks : List Batch
  stage : Stage
deriving DecidableEq

/-- The shared mutable state: the `processing_status` dict, the bounded
`asyncio.Queue` (entries, plus its `unfinished` task counter), the batches
currently held by workers between `get()` and `task_done()`, the rows committed
so far by `db_session.commit()`, the log of `asyncio.sleep` backoffs, and the
producer coroutines. -/
structure Config where
  processing_status : List (String × JobStatus)
  queue : List Entry
  unfinished : Nat
  inFlight : List Entry
  committed : List Entry
  sleeps : List Nat
  producers : List Producer
deriving DecidableEq

/-- Fresh `processing_status[file_id]` value created by `process_csv_async`. -/
def initialStatus (filename : String) (total : Nat) : JobStatus :=
  { filename := filename, total_chunks := total, processed_chunks := 0,
    progress := 0, status := JobState.processing, error := none }

/-- `progress = (processed / total) * 100` from `db_worker`. -/
def progressOf (processed total : Nat) : Rat :=
  ((processed : Rat) / (total : Rat)) * 100

/-- Producer step: `processing_status[file_id] = {...}` in `process_csv_async`. -/
def stepRegister (i : Nat) (c : Config) : Option Config :=
  match c.producers[i]? with
  | none => none
  | some p =>
    match p.stage with
    | Stage.toRegister =>
      some { c with
        processing_status := setKey c.processing_status p.fileId
          (initialStatus p.filename p.total),
        producers := c.producers.set i { p with stage := Stage.enqueuing } }
    | _ => none

/-- Producer step: one iteration of the chunk loop,
`await worker_pool.queue.put((users, file_id))`; blocked while the queue is at
`MAX_QUEUE_SIZE`. -/
def stepEnqueue (i : Nat) (c : Config) : Option Config :=
  match c.producers[i]? with
  | none => none
  | some p =>
    match p.stage, p.chunks with
    | Stage.enqueuing, b :: rest =>
      if c.queue.length < MAX_QUEUE_SIZE then
        some { c with
          queue := c.queue ++ [(b, p.fileId)],
          unfinished := c.unfinished + 1,
          producers := c.producers.set i { p with chunks := rest } }
      else none
    | _, _ => none

/-- Producer step: `processing_status[file_id]["status"] = "completed"` after
the loop; when `useJoin` is true (the `app/main.py` variant) it is preceded by
`await queue.join()`, which suspends until the queue's `unfinished` counter is
zero.  In the `app/services/csv_processor.py` variant the `join` is commented
out (`useJoin = false`). -/
def stepFinish (useJoin : Bool) (i : Nat) (c : Config) : Option Config :=
  match c.producers[i]? with
  | none => none
  | some p =>
    match p.stage, p.chunks with
    | Stage.enqueuing, [] =>
      if useJoin && c.unfinished != 0 then none
      else
        some { c with
          processing_status := updKey c.processing_status p.fileId
            (fun st => { st with status := JobState.completed }),
          producers := c.producers.set i { p with stage := Stage.finished } }
    | _, _ => none

/-- Worker step: `batch, file_id = await self.queue.get()`; blocked while the
queue is empty; at most `NUM_WORKERS` workers can hold a dequeued batch. -/
def stepDequeue (c : Config) : Option Config :=
  match c.queue with
  | [] => none
  | e :: rest =>
    if c.inFlight.length < NUM_WORKERS then
      some { c with queue := rest, inFlight := c.inFlight ++ [e] }
    else none

/-- The `Committed` counter update in `db_worker`:
`processed_chunks += 1; progress = (processed / total) * 100`. -/
def incStatus (st : JobStatus) : JobStatus :=
  { st with
      processed_chunks := st.processed_chunks + 1,
      progress := progressOf (st.processed_chunks + 1) st.total_chunks }

/-- Worker step, successful write: `db_session.add_all(batch); await
db_session.commit()` succeeds.  If `file_id in self.processing_status` the
counters are updated; the following `logging.info` line indexes
`self.processing_status[file_id]` unconditionally, so when the key is absent it
raises `KeyError`, which the inner `except` treats as a write failure: rollback
(the commit is already durable), `asyncio.sleep(1)`, re-enqueue.  Both paths
end in `finally: self.queue.task_done()`. -/
def stepCommitOk (w : Nat) (c : Config) : Option Config :=
  match c.inFlight[w]? with
  | none => none
  | some (b, fid) =>
    match lookupKey c.processing_status fid with
    | some _ =>
      some { c with
        committed := c.committed ++ [(b, fid)],
        processing_status := updKey c.processing_status fid incStatus,
        inFlight := c.inFlight.eraseIdx w,
        unfinished := c.unfinished - 1 }
    | none =>
      if c.queue.length < MAX_QUEUE_SIZE then
        some { c with
          committed := c.committed ++ [(b, fid)],
          queue := c.queue ++ [(b, fid)],
          sleeps := c.sleeps ++ [1],
          inFlight := c.inFlight.eraseIdx w }
      else none

/-- Worker step, failed write: `await db_session.rollback()`,
`await asyncio.sleep(1)`, `await self.queue.put((batch, file_id))`, then
`finally: self.queue.task_done()` — the batch is re-enqueued unchanged and no
counter is touched. -/
def stepCommitFail (w : Nat) (c : Config) : Option Config :=
  match c.inFlight[w]? with
  | none => none
  | some (b, fid) =>
    if c.queue.length < MAX_QUEUE_SIZE then
      some { c with
        queue := c.queue ++ [(b, fid)],
        sleeps := c.sleeps ++ [1],
        inFlight := c.inFlight.eraseIdx w }
    else none

/-- The atomic interleaving alphabet of the pipeline. -/
inductive Action
  | register (i : Nat)
  | enqueue (i : Nat)
  | finish (i : Nat)
  | dequeue
  | commitOk (w : Nat)
  | commitFail (w : Nat)
deriving DecidableEq

/-- One enabled atomic step of the system; `none` when the step is blocked or
does not apply. -/
def step (useJoin : Bool) (a : Action) (c : Config) : Option Config :=
  match a with
  | Action.register i => stepRegister i c
  | Action.enqueue i => stepEnqueue i c
  | Action.finish i => stepFinish useJoin i c
  | Action.dequeue => stepDequeue c
  | Action.commitOk w => stepCommitOk w c
  | Action.commitFail w => stepCommitFail w c

/-- Execution of a finite interleaving of steps. -/
def run (u : Bool) (c : Config) : List Action → Option Config
  | [] => some c
  | a :: tr =>
    match step u a c with
    | some c2 => run u c2 tr
    | none => none

/-- Initial configurations: empty registry and queue, all producers still to
register, with pairwise distinct job ids and `total_chunks` equal to the number
of chunks the batcher will emit for the decoded input. -/
def InitCfg (c : Config) : Prop :=
  c.processing_status = [] ∧ c.queue = [] ∧ c.unfinished = 0 ∧ c.inFlight = [] ∧
  (c.producers.map Producer.fileId).Nodup ∧
  ∀ p ∈ c.producers, p.stage = Stage.toRegister ∧ p.chunks.length = p.total

instance (c : Config) : Decidable (InitCfg c) := by
  unfold InitCfg
  infer_instance

theorem countP_eraseIdx {α : Type} (p : α → Bool) :
    ∀ (l : List α) (w : Nat) (x : α), l[w]? = some x →
      List.countP p (l.eraseIdx w) + (if p x then 1 else 0) = List.countP p l := by
  intro l
  induction l with
  | nil => intro w x hx; simp at hx
  | cons a t ih =>
    intro w x hx
    match w with
    | 0 =>
      simp only [List.getElem?_cons_zero, Option.some.injEq] at hx
      subst hx
      simp only [List.eraseIdx_cons_zero, List.countP_cons]
    | w + 1 =>
      simp only [List.getElem?_cons_succ] at hx
      simp only [List.eraseIdx_cons_succ, List.countP_cons]
      rw [← ih w x hx]
      omega

theorem mem_set_self {α : Type} (l : List α) (i : Nat) (x y : α) (h : l[i]? = some x) :
    y ∈ l.set i y := by
  induction l generalizing i with
  | nil => simp at h
  | cons a t ih =>
    match i with
    | 0 => simp [List.set_cons_zero]
    | i + 1 =>
      simp only [List.getElem?_cons_succ] at h
      rw [List.set_cons_succ]
      exact List.mem_cons_of_mem _ (ih i h)

theorem mem_set_of_ne {α : Type} (l : List α) (i : Nat) (x y q : α)
    (h : l[i]? = some x) (hq : q ∈ l) (hne : q ≠ x) : q ∈ l.set i y := by
  induction l generalizing i with
  | nil => simp at hq
  | cons a t ih =>
    match i with
    | 0 =>
      simp only [List.getElem?_cons_zero, Option.some.injEq] at h
      subst h
      rw [List.set_cons_zero]
      rcases List.mem_cons.mp hq with rfl | hq
      · exact absurd rfl hne
      · exact List.mem_cons_of_mem _ hq
    | i + 1 =>
      simp only [List.getElem?_cons_succ] at h
      rw [List.set_cons_succ]
      rcases List.mem_cons.mp hq with rfl | hq
      · exact List.mem_cons_self _ _
      · exact List.mem_cons_of_mem _ (ih i h hq)

theorem map_set_eq {α β : Type} (f : α → β) (l : List α) (i : Nat) (x y : α)
    (hx : l[i]? = some x) (hf : f x = f y) : (l.set i y).map f = l.map f := by
  induction l generalizing i with
  | nil => simp at hx
  | cons a t ih =>
    match i with
    | 0 =>
      simp only [List.getElem?_cons_zero, Option.some.injEq] at hx
      subst hx
      rw [List.set_cons_zero]
      simp [List.map_cons, hf]
    | i + 1 =>
      simp only [List.getElem?_cons_succ] at hx
      rw [List.set_cons_succ]
      simp [List.map_cons, ih i hx]

/-- Updating the producer found at index `i` with a producer carrying the same
`file_id`: any member of the updated list is either the updated producer or an
old member with a different `file_id` (job ids are pairwise distinct). -/
theorem set_update_cases (l : List Producer) (i : Nat) (p p1 : Producer)
    (hl : l[i]? = some p) (hfid : p1.fileId = p.fileId)
    (hnd : (l.map Producer.fileId).Nodup) :
    ∀ q ∈ l.set i p1, q = p1 ∨ (q ∈ l ∧ q.fileId ≠ p.fileId) := by
  induction l generalizing i with
  | nil => simp at hl
  | cons a t ih =>
    intro q hq
    have hnd2 := List.nodup_cons.mp (show (a.fileId :: t.map Producer.fileId).Nodup from hnd)
    match i with
    | 0 =>
      simp only [List.getElem?_cons_zero, Option.some.injEq] at hl
      subst hl
      rw [List.set_cons_zero] at hq
      rcases List.mem_cons.mp hq with rfl | hq
      · exact Or.inl rfl
      · right
        refine ⟨List.mem_cons_of_mem _ hq, fun heq => ?_⟩
        exact hnd2.1 (heq ▸ List.mem_map_of_mem Producer.fileId hq)
    | i + 1 =>
      simp only [List.getElem?_cons_succ] at hl
      rw [List.set_cons_succ] at hq
      rcases List.mem_cons.mp hq with rfl | hq
      · right
        refine ⟨List.mem_cons_self _ _, fun heq => ?_⟩
        have hpmem : p ∈ t := List.getElem?_mem hl
        exact hnd2.1 (heq ▸ List.mem_map_of_mem Producer.fileId hpmem)
      · rcases ih i hl hnd2.2 q hq with h1 | ⟨h1, h2⟩
        · exact Or.inl h1
        · exact Or.inr ⟨List.mem_cons_of_mem _ h1, h2⟩

/-- The number of queue entries tagged with a given `file_id`. -/
def countFid (fid : String) (l : List Entry) : Nat :=
  l.countP (fun e => decide (e.2 = fid))

theorem countFid_append (fid : String) (l1 l2 : List Entry) :
    countFid fid (l1 ++ l2) = countFid fid l1 + countFid fid l2 :=
  List.countP_append _ l1 l2

theorem countFid_single (fid : String) (b : Batch) (g : String) :
    countFid fid [(b, g)] = if g = fid then 1 else 0 := by
  simp [countFid, List.countP_cons]

theorem countFid_eraseIdx (fid : String) (l : List Entry) (w : Nat) (x : Entry)
    (hx : l[w]? = some x) :
    countFid fid (l.eraseIdx w) + (if x.2 = fid then 1 else 0) = countFid fid l := by
  have h := countP_eraseIdx (fun e => decide (e.2 = fid)) l w x hx
  simpa [countFid] using h

/-- Per-producer part of the inductive invariant: before registration the job
id is absent from `processing_status` and no batch for it exists anywhere;
after registration its registry entry keeps the `total_chunks` computed up
front, and the batches in the queue or held by workers, together with the
committed count, account exactly for the chunks enqueued so far. -/
def PInv (c : Config) (p : Producer) : Prop :=
  if p.stage = Stage.toRegister then
    lookupKey c.processing_status p.fileId = none ∧ p.chunks.length = p.total
  else
    ∃ st, lookupKey c.processing_status p.fileId = some st ∧
      st.total_chunks = p.total ∧ p.chunks.length ≤ p.total ∧
      countFid p.fileId c.queue + countFid p.fileId c.inFlight +
        st.processed_chunks = p.total - p.chunks.length

/-- The inductive invariant of the pipeline. -/
structure Inv (c : Config) : Prop where
  unf : c.unfinished = c.queue.length + c.inFlight.length
  qbound : c.queue.length ≤ MAX_QUEUE_SIZE
  nodupP : (c.producers.map Producer.fileId).Nodup
  owned : ∀ e ∈ c.queue ++ c.inFlight,
      ∃ p, p ∈ c.producers ∧ e.2 = p.fileId ∧ p.stage ≠ Stage.toRegister
  pinv : ∀ p ∈ c.producers, PInv c p
  regOwned : ∀ fid st, lookupKey c.processing_status fid = some st →
      ∃ p, p ∈ c.producers ∧ p.fileId = fid ∧ p.stage ≠ Stage.toRegister

theorem inv_init (c : Config) (h : InitCfg c) : Inv c := by
  obtain ⟨hreg, hq, hu, hf, hnd, hp⟩ := h
  refine ⟨by rw [hu, hq, hf]; rfl, by rw [hq]; simp [MAX_QUEUE_SIZE], hnd, ?_, ?_, ?_⟩
  · intro e he
    rw [hq, hf] at he
    simp at he
  · intro p hpmem
    have := hp p hpmem
    simp [PInv, this.1, hreg, lookupKey, this.2]
  · intro fid st hst
    rw [hreg] at hst
    simp [lookupKey] at hst

/-- Transfer of the per-producer invariant along a step that does not change
what the producer's job id sees in the registry, the queue or the in-flight
set. -/
theorem PInv_congr (c c2 : Config) (q : Producer)
    (hreg : lookupKey c2.processing_status q.fileId
      = lookupKey c.processing_status q.fileId)
    (hsum : countFid q.fileId c2.queue + countFid q.fileId c2.inFlight
      = countFid q.fileId c.queue + countFid q.fileId c.inFlight)
    (h : PInv c q) : PInv c2 q := by
  by_cases hs : q.stage = Stage.toRegister
  · simp only [PInv, hs, if_true] at h ⊢
    exact ⟨hreg.trans h.1, h.2⟩
  · simp only [PInv, hs, if_false] at h ⊢
    obtain ⟨st, h1, h2, h3, h4⟩ := h
    refine ⟨st, hreg.trans h1, h2, h3, ?_⟩
    omega

theorem countFid_cons (fid : String) (e : Entry) (l : List Entry) :
    countFid fid (e :: l) = countFid fid l + (if e.2 = fid then 1 else 0) := by
  simp [countFid, List.countP_cons]

/-- Transfer of an owning-producer witness across an update of the producer at
index `i` that keeps its `file_id` and stays registered. -/
theorem witness_transfer (c : Config) (i : Nat) (p p1 : Producer)
    (hp : c.producers[i]? = some p)
    (hfid : p1.fileId = p.fileId) (hstage : p1.stage ≠ Stage.toRegister)
    (fid : String) (pw : Producer) (hw1 : pw ∈ c.producers) (hw2 : pw.fileId = fid)
    (hw3 : pw.stage ≠ Stage.toRegister) :
    ∃ pq, pq ∈ c.producers.set i p1 ∧ pq.fileId = fid ∧ pq.stage ≠ Stage.toRegister := by
  by_cases hcase : pw.fileId = p.fileId
  · exact ⟨p1, mem_set_self c.producers i p p1 hp, by rw [hfid, ← hcase, hw2], hstage⟩
  · have hwne : pw ≠ p := fun he => hcase (by rw [he])
    exact ⟨pw, mem_set_of_ne c.producers i p p1 pw hp hw1 hwne, hw2, hw3⟩

/-- With pairwise distinct job ids, a registered producer rules out queue or
in-flight entries carrying the id of a still-unregistered producer. -/
theorem countFid_zero_of_toRegister (c : Config) (hinv : Inv c) (p : Producer)
    (hp : p ∈ c.producers) (hs : p.stage = Stage.toRegister) :
    countFid p.fileId c.queue = 0 ∧ countFid p.fileId c.inFlight = 0 := by
  have key : ∀ l : List Entry, (∀ e ∈ l, e ∈ c.queue ++ c.inFlight) →
      countFid p.fileId l = 0 := by
    intro l hl
    refine List.countP_eq_zero.mpr ?_
    intro e he
    simp only [decide_eq_true_eq]
    intro heq
    obtain ⟨pw, hw1, hw2, hw3⟩ := hinv.owned e (hl e he)
    have : pw = p :=
      List.inj_on_of_nodup_map hinv.nodupP hw1 hp (by rw [← hw2, heq])
    exact hw3 (this ▸ hs)
  exact ⟨key c.queue (fun e he => List.mem_append_left _ he),
    key c.inFlight (fun e he => List.mem_append_right _ he)⟩

theorem PInv_of_stage_ne {c : Config} {p : Producer} (hs : p.stage ≠ Stage.toRegister)
    (st : JobStatus) (h1 : lookupKey c.processing_status p.fileId = some st)
    (h2 : st.total_chunks = p.total) (h3 : p.chunks.length ≤ p.total)
    (h4 : countFid p.fileId c.queue + countFid p.fileId c.inFlight + st.processed_chunks
      = p.total - p.chunks.length) : PInv c p := by
  simp only [PInv, if_neg hs]
  exact ⟨st, h1, h2, h3, h4⟩

theorem PInv_elim {c : Config} {p : Producer} (hs : p.stage ≠ Stage.toRegister)
    (h : PInv c p) :
    ∃ st, lookupKey c.processing_status p.fileId = some st ∧
      st.total_chunks = p.total ∧ p.chunks.length ≤ p.total ∧
      countFid p.fileId c.queue + countFid p.fileId c.inFlight + st.processed_chunks
        = p.total - p.chunks.length := by
  simpa only [PInv, if_neg hs] using h

theorem inv_stepRegister (i : Nat) (c c2 : Config) (hinv : Inv c)
    (h : stepRegister i c = some c2) : Inv c2 := by
  unfold stepRegister at h
  cases hp : c.producers[i]? with
  | none => rw [hp] at h; exact absurd h (by simp)
  | some p =>
    simp only [hp] at h
    cases hs : p.stage
    case enqueuing => simp [hs] at h
    case finished => simp [hs] at h
    case toRegister =>
    simp only [hs, Option.some.injEq] at h
    subst h
    have hpm : p ∈ c.producers := List.getElem?_mem hp
    have hpi : PInv c p := hinv.pinv p hpm
    simp only [PInv, hs, if_true] at hpi
    obtain ⟨hnone, hlen⟩ := hpi
    have hcounts := countFid_zero_of_toRegister c hinv p hpm hs
    refine ⟨hinv.unf, hinv.qbound, ?_, ?_, ?_, ?_⟩
    · show ((c.producers.set i { p with stage := Stage.enqueuing }).map Producer.fileId).Nodup
      rw [map_set_eq Producer.fileId c.producers i p { p with stage := Stage.enqueuing } hp rfl]
      exact hinv.nodupP
    · intro e he
      obtain ⟨pw, hw1, hw2, hw3⟩ := hinv.owned e he
      have hwne : pw ≠ p := fun hpe => hw3 (hpe ▸ hs)
      exact ⟨pw,
        mem_set_of_ne c.producers i p { p with stage := Stage.enqueuing } pw hp hw1 hwne,
        hw2, hw3⟩
    · intro q hq
      have hq2 : q ∈ c.producers.set i { p with stage := Stage.enqueuing } := hq
      rcases set_update_cases c.producers i p { p with stage := Stage.enqueuing } hp rfl
        hinv.nodupP q hq2 with rfl | ⟨hq1, hq2⟩
      · refine PInv_of_stage_ne (by simp) (initialStatus p.filename p.total) ?_ rfl ?_ ?_
        · exact lookupKey_setKey_self _ _ _
        · show p.chunks.length ≤ p.total
          omega
        · show countFid p.fileId c.queue + countFid p.fileId c.inFlight + 0
            = p.total - p.chunks.length
          rw [hcounts.1, hcounts.2]
          omega
      · refine PInv_congr c _ q ?_ rfl (hinv.pinv q hq1)
        exact lookupKey_setKey_ne _ _ _ _ (fun he => hq2 (he.symm))
    · intro fid st hst
      by_cases hfid : fid = p.fileId
      · subst hfid
        refine ⟨{ p with stage := Stage.enqueuing },
          mem_set_self c.producers i p { p with stage := Stage.enqueuing } hp, rfl, by simp⟩
      · have hst2 : lookupKey c.processing_status fid = some st := by
          rw [← lookupKey_setKey_ne c.processing_status p.fileId fid
            (initialStatus p.filename p.total) (fun he => hfid he.symm)]
          exact hst
        obtain ⟨pw, hw1, hw2, hw3⟩ := hinv.regOwned fid st hst2
        have hwne : pw ≠ p := fun hpe => hw3 (hpe ▸ hs)
        exact ⟨pw,
          mem_set_of_ne c.producers i p { p with stage := Stage.enqueuing } pw hp hw1 hwne,
          hw2, hw3⟩

theorem inv_stepEnqueue (i : Nat) (c c2 : Config) (hinv : Inv c)
    (h : stepEnqueue i c = some c2) : Inv c2 := by
  unfold stepEnqueue at h
  cases hp : c.producers[i]? with
  | none => rw [hp] at h; exact absurd h (by simp)
  | some p =>
    simp only [hp] at h
    cases hs : p.stage <;> cases hch : p.chunks <;> simp only [hs, hch] at h
    case toRegister.nil => exact absurd h (by simp)
    case toRegister.cons b rest => exact absurd h (by simp)
    case finished.nil => exact absurd h (by simp)
    case finished.cons b rest => exact absurd h (by simp)
    case enqueuing.nil => exact absurd h (by simp)
    case enqueuing.cons b rest =>
    split at h
    case isFalse => exact absurd h (by simp)
    case isTrue hlen =>
    simp only [Option.some.injEq] at h
    subst h
    have hpm : p ∈ c.producers := List.getElem?_mem hp
    have hsne : p.stage ≠ Stage.toRegister := by rw [hs]; simp
    obtain ⟨st, h1, h2, h3, h4⟩ := PInv_elim hsne (hinv.pinv p hpm)
    refine ⟨?_, ?_, ?_, ?_, ?_, ?_⟩
    · show c.unfinished + 1 = (c.queue ++ [(b, p.fileId)]).length + c.inFlight.length
      rw [List.length_append]
      have := hinv.unf
      simp only [List.length_cons, List.length_nil]
      omega
    · show (c.queue ++ [(b, p.fileId)]).length ≤ MAX_QUEUE_SIZE
      rw [List.length_append]
      simp only [List.length_cons, List.length_nil]
      omega
    · show ((c.producers.set i { p with chunks := rest, stage := Stage.enqueuing }).map Producer.fileId).Nodup
      rw [map_set_eq Producer.fileId c.producers i p { p with chunks := rest, stage := Stage.enqueuing } hp rfl]
      exact hinv.nodupP
    · intro e he
      have he2 : e = (b, p.fileId) ∨ e ∈ c.queue ++ c.inFlight := by
        rcases List.mem_append.mp he with h5 | h5
        · rcases List.mem_append.mp h5 with h6 | h6
          · exact Or.inr (List.mem_append_left _ h6)
          · exact Or.inl (by simpa using h6)
        · exact Or.inr (List.mem_append_right _ h5)
      rcases he2 with rfl | he2
      · exact ⟨{ p with chunks := rest, stage := Stage.enqueuing },
          mem_set_self c.producers i p { p with chunks := rest, stage := Stage.enqueuing } hp,
          rfl, by simp⟩
      · obtain ⟨pw, hw1, hw2, hw3⟩ := hinv.owned e he2
        obtain ⟨pq, hq1, hq2, hq3⟩ := witness_transfer c i p { p with chunks := rest, stage := Stage.enqueuing } hp rfl
          (by simp) e.2 pw hw1 hw2.symm hw3
        exact ⟨pq, hq1, hq2.symm, hq3⟩
    · intro q hq
      have hq0 : q ∈ c.producers.set i { p with chunks := rest, stage := Stage.enqueuing } := hq
      rcases set_update_cases c.producers i p { p with chunks := rest, stage := Stage.enqueuing } hp rfl
        hinv.nodupP q hq0 with rfl | ⟨hq1, hq2⟩
      · refine PInv_of_stage_ne (by simp) st h1 h2 ?_ ?_
        · show rest.length ≤ p.total
          rw [hch] at h3
          simp only [List.length_cons] at h3
          omega
        · show countFid p.fileId (c.queue ++ [(b, p.fileId)]) + countFid p.fileId c.inFlight
            + st.processed_chunks = p.total - rest.length
          rw [countFid_append, countFid_single, if_pos rfl]
          rw [hch] at h3 h4
          simp only [List.length_cons] at h3 h4
          omega
      · refine PInv_congr c _ q ?_ ?_ (hinv.pinv q hq1)
        · rfl
        · show countFid q.fileId (c.queue ++ [(b, p.fileId)]) + countFid q.fileId c.inFlight
            = countFid q.fileId c.queue + countFid q.fileId c.inFlight
          rw [countFid_append, countFid_single, if_neg (fun he => hq2 he.symm)]
          omega
    · intro fid st2 hst
      obtain ⟨pw, hw1, hw2, hw3⟩ := hinv.regOwned fid st2 hst
      exact witness_transfer c i p { p with chunks := rest, stage := Stage.enqueuing } hp rfl
        (by simp) fid pw hw1 hw2 hw3

theorem inv_stepFinish (u : Bool) (i : Nat) (c c2 : Config) (hinv : Inv c)
    (h : stepFinish u i c = some c2) : Inv c2 := by
  unfold stepFinish at h
  cases hp : c.producers[i]? with
  | none => rw [hp] at h; exact absurd h (by simp)
  | some p =>
    simp only [hp] at h
    cases hs : p.stage <;> cases hch : p.chunks <;> simp only [hs, hch] at h
    case toRegister.nil => exact absurd h (by simp)
    case toRegister.cons b rest => exact absurd h (by simp)
    case finished.nil => exact absurd h (by simp)
    case finished.cons b rest => exact absurd h (by simp)
    case enqueuing.cons b rest => exact absurd h (by simp)
    case enqueuing.nil =>
    split at h
    case isTrue => exact absurd h (by simp)
    case isFalse hjoin =>
    simp only [Option.some.injEq] at h
    subst h
    have hpm : p ∈ c.producers := List.getElem?_mem hp
    have hsne : p.stage ≠ Stage.toRegister := by rw [hs]; simp
    obtain ⟨st, h1, h2, h3, h4⟩ := PInv_elim hsne (hinv.pinv p hpm)
    refine ⟨hinv.unf, hinv.qbound, ?_, ?_, ?_, ?_⟩
    · show ((c.producers.set i
        { p with chunks := ([] : List Batch), stage := Stage.finished }).map
          Producer.fileId).Nodup
      rw [map_set_eq Producer.fileId c.producers i p
        { p with chunks := ([] : List Batch), stage := Stage.finished } hp rfl]
      exact hinv.nodupP
    · intro e he
      obtain ⟨pw, hw1, hw2, hw3⟩ := hinv.owned e he
      obtain ⟨pq, hq1, hq2, hq3⟩ := witness_transfer c i p
        { p with chunks := ([] : List Batch), stage := Stage.finished } hp rfl
        (by simp) e.2 pw hw1 hw2.symm hw3
      exact ⟨pq, hq1, hq2.symm, hq3⟩
    · intro q hq
      have hq0 : q ∈ c.producers.set i
          { p with chunks := ([] : List Batch), stage := Stage.finished } := hq
      rcases set_update_cases c.producers i p
        { p with chunks := ([] : List Batch), stage := Stage.finished } hp rfl
        hinv.nodupP q hq0 with rfl | ⟨hq1, hq2⟩
      · refine PInv_of_stage_ne (by simp) { st with status := JobState.completed } ?_ ?_ ?_ ?_
        · show lookupKey (updKey c.processing_status p.fileId
            (fun st2 => { st2 with status := JobState.completed })) p.fileId = _
          rw [lookupKey_updKey_self, h1]
          rfl
        · exact h2
        · show List.length ([] : List Batch) ≤ p.total
          simp
        · show countFid p.fileId c.queue + countFid p.fileId c.inFlight
            + st.processed_chunks = p.total - List.length ([] : List Batch)
          rw [hch] at h4
          simpa using h4
      · refine PInv_congr c _ q ?_ rfl (hinv.pinv q hq1)
        exact lookupKey_updKey_ne _ _ _ _ (fun he => hq2 he.symm)
    · intro fid st2 hst
      by_cases hfid : fid = p.fileId
      · subst hfid
        exact ⟨{ p with chunks := ([] : List Batch), stage := Stage.finished },
          mem_set_self c.producers i p _ hp, rfl, by simp⟩
      · rw [lookupKey_updKey_ne _ _ _ _ (fun he => hfid he.symm)] at hst
        obtain ⟨pw, hw1, hw2, hw3⟩ := hinv.regOwned fid st2 hst
        exact witness_transfer c i p
          { p with chunks := ([] : List Batch), stage := Stage.finished } hp rfl
          (by simp) fid pw hw1 hw2 hw3

theorem inv_stepDequeue (c c2 : Config) (hinv : Inv c)
    (h : stepDequeue c = some c2) : Inv c2 := by
  unfold stepDequeue at h
  cases hq : c.queue with
  | nil => rw [hq] at h; exact absurd h (by simp)
  | cons e rest =>
    simp only [hq] at h
    split at h
    case isFalse => exact absurd h (by simp)
    case isTrue hw =>
    simp only [Option.some.injEq] at h
    subst h
    refine ⟨?_, ?_, hinv.nodupP, ?_, ?_, hinv.regOwned⟩
    · show c.unfinished = rest.length + (c.inFlight ++ [e]).length
      have := hinv.unf
      rw [hq] at this
      simp only [List.length_cons] at this
      rw [List.length_append]
      simp only [List.length_cons, List.length_nil]
      omega
    · show rest.length ≤ MAX_QUEUE_SIZE
      have := hinv.qbound
      rw [hq] at this
      simp only [List.length_cons] at this
      omega
    · intro e2 he2
      have hmem : e2 ∈ c.queue ++ c.inFlight := by
        rw [hq]
        rcases List.mem_append.mp he2 with h5 | h5
        · exact List.mem_append_left _ (List.mem_cons_of_mem _ h5)
        · rcases List.mem_append.mp h5 with h6 | h6
          · exact List.mem_append_right _ h6
          · have : e2 = e := by simpa using h6
            subst this
            exact List.mem_append_left _ (List.mem_cons_self _ _)
      exact hinv.owned e2 hmem
    · intro q hqm
      refine PInv_congr c _ q rfl ?_ (hinv.pinv q hqm)
      show countFid q.fileId rest + countFid q.fileId (c.inFlight ++ [e])
        = countFid q.fileId c.queue + countFid q.fileId c.inFlight
      rw [hq, countFid_cons, countFid_append]
      have : countFid q.fileId [e] = if e.2 = q.fileId then 1 else 0 := by
        rw [show e = (e.1, e.2) from rfl, countFid_single]
      rw [this]
      omega

theorem inv_stepCommitOk (w : Nat) (c c2 : Config) (hinv : Inv c)
    (h : stepCommitOk w c = some c2) : Inv c2 := by
  unfold stepCommitOk at h
  cases hin : c.inFlight[w]? with
  | none => rw [hin] at h; exact absurd h (by simp)
  | some e =>
    obtain ⟨b, fid⟩ := e
    simp only [hin] at h
    have hmem : (b, fid) ∈ c.inFlight := List.getElem?_mem hin
    have hwlt : w < c.inFlight.length := by
      rcases List.getElem?_eq_some.mp hin with ⟨h5, _⟩
      exact h5
    cases hlk : lookupKey c.processing_status fid with
    | none =>
      exfalso
      obtain ⟨pw, hw1, hw2, hw3⟩ := hinv.owned (b, fid) (List.mem_append_right _ hmem)
      obtain ⟨stw, hw4, _⟩ := PInv_elim hw3 (hinv.pinv pw hw1)
      rw [← hw2] at hw4
      rw [hlk] at hw4
      exact Option.noConfusion hw4
    | some st0 =>
      simp only [hlk] at h
      simp only [Option.some.injEq] at h
      subst h
      refine ⟨?_, hinv.qbound, hinv.nodupP, ?_, ?_, ?_⟩
      · show c.unfinished - 1 = c.queue.length + (c.inFlight.eraseIdx w).length
        rw [List.length_eraseIdx, if_pos hwlt]
        have := hinv.unf
        omega
      · intro e2 he2
        have hmem2 : e2 ∈ c.queue ++ c.inFlight := by
          rcases List.mem_append.mp he2 with h5 | h5
          · exact List.mem_append_left _ h5
          · exact List.mem_append_right _ (List.eraseIdx_subset _ _ h5)
        exact hinv.owned e2 hmem2
      · intro q hqm
        by_cases hqf : q.fileId = fid
        · have hsne : q.stage ≠ Stage.toRegister := by
            intro hsq
            have := hinv.pinv q hqm
            simp only [PInv, hsq, if_true] at this
            rw [hqf, hlk] at this
            exact Option.noConfusion this.1
          obtain ⟨stq, hq1, hq2, hq3, hq4⟩ := PInv_elim hsne (hinv.pinv q hqm)
          have hstq : stq = st0 := by
            rw [hqf, hlk] at hq1
            injection hq1 with hv
            exact hv.symm
          subst hstq
          refine PInv_of_stage_ne hsne { stq with processed_chunks := stq.processed_chunks + 1, progress := progressOf (stq.processed_chunks + 1) stq.total_chunks } ?_ ?_ hq3 ?_
          · show lookupKey (updKey c.processing_status fid _) q.fileId = _
            rw [hqf, lookupKey_updKey_self, hlk]
            rfl
          · exact hq2
          · have he := countFid_eraseIdx q.fileId c.inFlight w (b, fid) hin
            have he2 : countFid q.fileId (c.inFlight.eraseIdx w)
                + (if fid = q.fileId then 1 else 0) = countFid q.fileId c.inFlight := he
            rw [if_pos hqf.symm] at he2
            show countFid q.fileId c.queue + countFid q.fileId (c.inFlight.eraseIdx w)
              + (stq.processed_chunks + 1) = q.total - q.chunks.length
            omega
        · refine PInv_congr c _ q ?_ ?_ (hinv.pinv q hqm)
          · exact lookupKey_updKey_ne _ _ _ _ (fun he => hqf he.symm)
          · have he := countFid_eraseIdx q.fileId c.inFlight w (b, fid) hin
            have he2 : countFid q.fileId (c.inFlight.eraseIdx w)
                + (if fid = q.fileId then 1 else 0) = countFid q.fileId c.inFlight := he
            rw [if_neg (fun hx => hqf hx.symm)] at he2
            show countFid q.fileId c.queue + countFid q.fileId (c.inFlight.eraseIdx w)
              = countFid q.fileId c.queue + countFid q.fileId c.inFlight
            omega
      · intro fid2 st2 hst
        by_cases hfid : fid2 = fid
        · subst hfid
          exact hinv.regOwned fid2 st0 hlk
        · rw [lookupKey_updKey_ne _ _ _ _ (fun he => hfid he.symm)] at hst
          exact hinv.regOwned fid2 st2 hst

theorem inv_stepCommitFail (w : Nat) (c c2 : Config) (hinv : Inv c)
    (h : stepCommitFail w c = some c2) : Inv c2 := by
  unfold stepCommitFail at h
  cases hin : c.inFlight[w]? with
  | none => rw [hin] at h; exact absurd h (by simp)
  | some e =>
    obtain ⟨b, fid⟩ := e
    simp only [hin] at h
    have hmem : (b, fid) ∈ c.inFlight := List.getElem?_mem hin
    have hwlt : w < c.inFlight.length := by
      rcases List.getElem?_eq_some.mp hin with ⟨h5, _⟩
      exact h5
    split at h
    case isFalse => exact absurd h (by simp)
    case isTrue hlen =>
    simp only [Option.some.injEq] at h
    subst h
    refine ⟨?_, ?_, hinv.nodupP, ?_, ?_, hinv.regOwned⟩
    · show c.unfinished
        = (c.queue ++ [(b, fid)]).length + (c.inFlight.eraseIdx w).length
      rw [List.length_append, List.length_eraseIdx, if_pos hwlt]
      have := hinv.unf
      simp only [List.length_cons, List.length_nil]
      omega
    · show (c.queue ++ [(b, fid)]).length ≤ MAX_QUEUE_SIZE
      rw [List.length_append]
      simp only [List.length_cons, List.length_nil]
      omega
    · intro e2 he2
      have hmem2 : e2 ∈ c.queue ++ c.inFlight := by
        rcases List.mem_append.mp he2 with h5 | h5
        · rcases List.mem_append.mp h5 with h6 | h6
          · exact List.mem_append_left _ h6
          · have : e2 = (b, fid) := by simpa using h6
            subst this
            exact List.mem_append_right _ hmem
        · exact List.mem_append_right _ (List.eraseIdx_subset _ _ h5)
      exact hinv.owned e2 hmem2
    · intro q hqm
      refine PInv_congr c _ q rfl ?_ (hinv.pinv q hqm)
      have he := countFid_eraseIdx q.fileId c.inFlight w (b, fid) hin
      have he2 : countFid q.fileId (c.inFlight.eraseIdx w)
          + (if fid = q.fileId then 1 else 0) = countFid q.fileId c.inFlight := he
      show countFid q.fileId (c.queue ++ [(b, fid)])
          + countFid q.fileId (c.inFlight.eraseIdx w)
        = countFid q.fileId c.queue + countFid q.fileId c.inFlight
      rw [countFid_append, countFid_single]
      omega

theorem inv_step (u : Bool) (a : Action) (c c2 : Config) (hinv : Inv c)
    (h : step u a c = some c2) : Inv c2 := by
  cases a with
  | register i => exact inv_stepRegister i c c2 hinv h
  | enqueue i => exact inv_stepEnqueue i c c2 hinv h
  | finish i => exact inv_stepFinish u i c c2 hinv h
  | dequeue => exact inv_stepDequeue c c2 hinv h
  | commitOk w => exact inv_stepCommitOk w c c2 hinv h
  | commitFail w => exact inv_stepCommitFail w c c2 hinv h

theorem inv_run (u : Bool) (tr : List Action) :
    ∀ (c c2 : Config), Inv c → run u c tr = some c2 → Inv c2 := by
  induction tr with
  | nil =>
    intro c c2 hinv h
    simp only [run, Option.some.injEq] at h
    exact h ▸ hinv
  | cons a tr ih =>
    intro c c2 hinv h
    unfold run at h
    cases hst : step u a c with
    | none => rw [hst] at h; exact absurd h (by simp)
    | some c1 =>
      rw [hst] at h
      exact ih c1 c2 (inv_step u a c c1 hinv hst) h

theorem processed_le_total_of_inv (c : Config) (hinv : Inv c) :
    ∀ fid st, lookupKey c.processing_status fid = some st →
      st.processed_chunks ≤ st.total_chunks := by
  intro fid st hst
  obtain ⟨q, hq1, hq2, hq3⟩ := hinv.regOwned fid st hst
  obtain ⟨stq, ha, hb, hc, hd⟩ := PInv_elim hq3 (hinv.pinv q hq1)
  rw [hq2, hst] at ha
  injection ha with hv
  subst hv
  omega

/-- Along any single enabled step, every registered job's `processed_chunks`
does not decrease. -/
theorem processed_monotone_step (u : Bool) (a : Action) (c c2 : Config) (hinv : Inv c)
    (h : step u a c = some c2) :
    ∀ fid st st2, lookupKey c.processing_status fid = some st →
      lookupKey c2.processing_status fid = some st2 →
      st.processed_chunks ≤ st2.processed_chunks := by
  intro fid st st2 hst hst2
  cases a with
  | register i =>
    simp only [step] at h
    unfold stepRegister at h
    cases hp : c.producers[i]? with
    | none => rw [hp] at h; exact absurd h (by simp)
    | some p =>
      simp only [hp] at h
      cases hs : p.stage <;> simp only [hs] at h
      case enqueuing => exact absurd h (by simp)
      case finished => exact absurd h (by simp)
      case toRegister =>
      simp only [Option.some.injEq] at h
      subst h
      by_cases hfid : fid = p.fileId
      · subst hfid
        have hpm := List.getElem?_mem hp
        have hti := hinv.pinv p hpm
        simp only [PInv, hs, if_true] at hti
        rw [hti.1] at hst
        exact Option.noConfusion hst
      · have hst2b : lookupKey (setKey c.processing_status p.fileId
            (initialStatus p.filename p.total)) fid = some st2 := hst2
        rw [lookupKey_setKey_ne _ _ _ _ (fun he => hfid he.symm), hst] at hst2b
        injection hst2b with hv
        rw [hv]
  | enqueue i =>
    simp only [step] at h
    unfold stepEnqueue at h
    cases hp : c.producers[i]? with
    | none => rw [hp] at h; exact absurd h (by simp)
    | some p =>
      simp only [hp] at h
      cases hs : p.stage <;> cases hch : p.chunks <;> simp only [hs, hch] at h
      case toRegister.nil => exact absurd h (by simp)
      case toRegister.cons b rest => exact absurd h (by simp)
      case finished.nil => exact absurd h (by simp)
      case finished.cons b rest => exact absurd h (by simp)
      case enqueuing.nil => exact absurd h (by simp)
      case enqueuing.cons b rest =>
      split at h
      case isFalse => exact absurd h (by simp)
      case isTrue =>
      simp only [Option.some.injEq] at h
      subst h
      have hst2b : lookupKey c.processing_status fid = some st2 := hst2
      rw [hst] at hst2b
      injection hst2b with hv
      rw [hv]
  | finish i =>
    simp only [step] at h
    unfold stepFinish at h
    cases hp : c.producers[i]? with
    | none => rw [hp] at h; exact absurd h (by simp)
    | some p =>
      simp only [hp] at h
      cases hs : p.stage <;> cases hch : p.chunks <;> simp only [hs, hch] at h
      case toRegister.nil => exact absurd h (by simp)
      case toRegister.cons b rest => exact absurd h (by simp)
      case finished.nil => exact absurd h (by simp)
      case finished.cons b rest => exact absurd h (by simp)
      case enqueuing.cons b rest => exact absurd h (by simp)
      case enqueuing.nil =>
      split at h
      case isTrue => exact absurd h (by simp)
      case isFalse =>
      simp only [Option.some.injEq] at h
      subst h
      by_cases hfid : fid = p.fileId
      · subst hfid
        have hst2b : lookupKey (updKey c.processing_status p.fileId
            (fun st3 => { st3 with status := JobState.completed })) p.fileId
            = some st2 := hst2
        rw [lookupKey_updKey_self, hst] at hst2b
        injection hst2b with hv
        rw [← hv]
      · have hst2b : lookupKey (updKey c.processing_status p.fileId
            (fun st3 => { st3 with status := JobState.completed })) fid = some st2 := hst2
        rw [lookupKey_updKey_ne _ _ _ _ (fun he => hfid he.symm), hst] at hst2b
        injection hst2b with hv
        rw [hv]
  | dequeue =>
    simp only [step] at h
    unfold stepDequeue at h
    cases hq : c.queue with
    | nil => rw [hq] at h; exact absurd h (by simp)
    | cons e rest =>
      simp only [hq] at h
      split at h
      case isFalse => exact absurd h (by simp)
      case isTrue =>
      simp only [Option.some.injEq] at h
      subst h
      have hst2b : lookupKey c.processing_status fid = some st2 := hst2
      rw [hst] at hst2b
      injection hst2b with hv
      rw [hv]
  | commitOk w =>
    simp only [step] at h
    unfold stepCommitOk at h
    cases hin : c.inFlight[w]? with
    | none => rw [hin] at h; exact absurd h (by simp)
    | some e =>
      obtain ⟨b, fid0⟩ := e
      simp only [hin] at h
      cases hlk : lookupKey c.processing_status fid0 with
      | none =>
        simp only [hlk] at h
        split at h
        case isFalse => exact absurd h (by simp)
        case isTrue =>
        simp only [Option.some.injEq] at h
        subst h
        have hst2b : lookupKey c.processing_status fid = some st2 := hst2
        rw [hst] at hst2b
        injection hst2b with hv
        rw [hv]
      | some st0 =>
        simp only [hlk] at h
        simp only [Option.some.injEq] at h
        subst h
        by_cases hfid : fid = fid0
        · subst hfid
          have hst2b : lookupKey (updKey c.processing_status fid incStatus) fid
              = some st2 := hst2
          rw [lookupKey_updKey_self, hst] at hst2b
          injection hst2b with hv
          rw [← hv]
          simp [incStatus]
        · have hst2b : lookupKey (updKey c.processing_status fid0 incStatus) fid
              = some st2 := hst2
          rw [lookupKey_updKey_ne _ _ _ _ (fun he => hfid he.symm), hst] at hst2b
          injection hst2b with hv
          rw [hv]
  | commitFail w =>
    simp only [step] at h
    unfold stepCommitFail at h
    cases hin : c.inFlight[w]? with
    | none => rw [hin] at h; exact absurd h (by simp)
    | some e =>
      obtain ⟨b, fid0⟩ := e
      simp only [hin] at h
      split at h
      case isFalse => exact absurd h (by simp)
      case isTrue =>
      simp only [Option.some.injEq] at h
      subst h
      have hst2b : lookupKey c.processing_status fid = some st2 := hst2
      rw [hst] at hst2b
      injection hst2b with hv
      rw [hv]

/-- Enqueueing is not enabled while the queue is at capacity: the producer's
`await queue.put(...)` does not return. -/
theorem stepEnqueue_none_of_full (i : Nat) (c : Config)
    (h : MAX_QUEUE_SIZE ≤ c.queue.length) : stepEnqueue i c = none := by
  unfold stepEnqueue
  cases hp : c.producers[i]? with
  | none => rfl
  | some p =>
    cases hs : p.stage <;> cases hch : p.chunks <;> simp only [hs, hch]
    case enqueuing.cons b rest => rw [if_neg (by omega)]

/-- Dequeueing is not enabled while the queue is empty: the worker's
`await queue.get()` does not return. -/
theorem stepDequeue_none_of_empty (c : Config) (h : c.queue = []) :
    stepDequeue c = none := by
  unfold stepDequeue
  rw [h]

/-- Claim C3: for every job and every reachable interleaving of worker and
producer steps, `processed_chunks` is monotonically non-decreasing along every
step and never exceeds `total_chunks`. -/
theorem C3_processed_monotone_bounded (u : Bool) (c0 c1 c2 : Config)
    (tr : List Action) (a : Action)
    (h0 : InitCfg c0) (hrun : run u c0 tr = some c1) (hstep : step u a c1 = some c2) :
    (∀ fid st st2, lookupKey c1.processing_status fid = some st →
        lookupKey c2.processing_status fid = some st2 →
        st.processed_chunks ≤ st2.processed_chunks) ∧
    (∀ fid st, lookupKey c2.processing_status fid = some st →
        st.processed_chunks ≤ st.total_chunks) := by
  have hinv1 : Inv c1 := inv_run u tr c0 c1 (inv_init c0 h0) hrun
  have hinv2 : Inv c2 := inv_step u a c1 c2 hinv1 hstep
  exact ⟨processed_monotone_step u a c1 c2 hinv1 hstep,
    processed_le_total_of_inv c2 hinv2⟩

/-- A one-job initial configuration used by concrete instances. -/
def wInit : Config :=
  { processing_status := [], queue := [], unfinished := 0, inFlight := [],
    committed := [], sleeps := [],
    producers := [{ fileId := "a.csv_1", filename := "a.csv", total := 1, chunks := [[sampleRecord]], stage := Stage.toRegister }] }

/-- `wInit` after the producer registers its job. -/
def wReg : Config :=
  { processing_status := [("a.csv_1", initialStatus "a.csv" 1)], queue := [],
    unfinished := 0, inFlight := [], committed := [], sleeps := [],
    producers := [{ fileId := "a.csv_1", filename := "a.csv", total := 1, chunks := [[sampleRecord]], stage := Stage.enqueuing }] }

/-- `wReg` after the producer enqueues its single chunk. -/
def wEnq : Config :=
  { processing_status := [("a.csv_1", initialStatus "a.csv" 1)],
    queue := [([sampleRecord], "a.csv_1")],
    unfinished := 1, inFlight := [], committed := [], sleeps := [],
    producers := [{ fileId := "a.csv_1", filename := "a.csv", total := 1, chunks := [], stage := Stage.enqueuing }] }

/-- Witness for C3 on a concrete one-job run. -/
theorem C3_processed_monotone_bounded_witness :
    InitCfg wInit ∧ run false wInit [Action.register 0] = some wReg ∧
    step false (Action.enqueue 0) wReg = some wEnq ∧
    ((∀ fid st st2, lookupKey wReg.processing_status fid = some st →
        lookupKey wEnq.processing_status fid = some st2 →
        st.processed_chunks ≤ st2.processed_chunks) ∧
      (∀ fid st, lookupKey wEnq.processing_status fid = some st →
        st.processed_chunks ≤ st.total_chunks)) :=
  ⟨by decide, by decide, by decide,
    C3_processed_monotone_bounded false wInit wReg wEnq [Action.register 0]
      (Action.enqueue 0) (by decide) (by decide) (by decide)⟩

/-- Claim C6: in every reachable state the work queue holds at most
`MAX_QUEUE_SIZE` (10) entries; an enqueue attempted while the queue is full is
not enabled (the producer blocks), and a dequeue attempted while the queue is
empty is not enabled (the worker blocks). -/
theorem C6_queue_bounded_and_blocking (u : Bool) (c0 c1 : Config) (tr : List Action)
    (h0 : InitCfg c0) (hrun : run u c0 tr = some c1) :
    c1.queue.length ≤ MAX_QUEUE_SIZE ∧
    (MAX_QUEUE_SIZE ≤ c1.queue.length →
      ∀ i, step u (Action.enqueue i) c1 = none) ∧
    (c1.queue = [] → step u Action.dequeue c1 = none) := by
  have hinv : Inv c1 := inv_run u tr c0 c1 (inv_init c0 h0) hrun
  refine ⟨hinv.qbound, ?_, ?_⟩
  · intro hfull i
    show stepEnqueue i c1 = none
    exact stepEnqueue_none_of_full i c1 hfull
  · intro hempty
    show stepDequeue c1 = none
    exact stepDequeue_none_of_empty c1 hempty

/-- Witness for C6 on a concrete run. -/
theorem C6_queue_bounded_and_blocking_witness :
    InitCfg wInit ∧ run false wInit [Action.register 0] = some wReg ∧
    (wReg.queue.length ≤ MAX_QUEUE_SIZE ∧
      (MAX_QUEUE_SIZE ≤ wReg.queue.length →
        ∀ i, step false (Action.enqueue i) wReg = none) ∧
      (wReg.queue = [] → step false Action.dequeue wReg = none)) :=
  ⟨by decide, by decide,
    C6_queue_bounded_and_blocking false wInit wReg [Action.register 0]
      (by decide) (by decide)⟩

/-- The number of occurrences of one exact `(batch, file_id)` entry. -/
def countEntry (e : Entry) (l : List Entry) : Nat :=
  l.countP (fun x => decide (x = e))

/-- Claim C7: on a failed transactional write the worker rolls back (nothing is
committed), records the fixed 1-second backoff, re-enqueues exactly the same
batch under the same job id (the multiset of pending entries is preserved — no
loss or duplication), and no job's `processed_chunks` changes; `processed_chunks`
is incremented exactly when a write of the batch succeeds for a registered job. -/
theorem C7_write_failure_requeues (c c2 : Config) (w : Nat) (b : Batch) (fid : String)
    (hin : c.inFlight[w]? = some (b, fid))
    (h : stepCommitFail w c = some c2) :
    c2.queue = c.queue ++ [(b, fid)] ∧
    c2.inFlight = c.inFlight.eraseIdx w ∧
    c2.processing_status = c.processing_status ∧
    c2.committed = c.committed ∧
    c2.sleeps = c.sleeps ++ [1] ∧
    (∀ e : Entry, countEntry e (c2.queue ++ c2.inFlight)
      = countEntry e (c.queue ++ c.inFlight)) ∧
    (∀ c3 st, lookupKey c.processing_status fid = some st →
      stepCommitOk w c = some c3 →
      lookupKey c3.processing_status fid = some (incStatus st)) := by
  unfold stepCommitFail at h
  simp only [hin] at h
  split at h
  case isFalse => exact absurd h (by simp)
  case isTrue hlen =>
  simp only [Option.some.injEq] at h
  subst h
  refine ⟨rfl, rfl, rfl, rfl, rfl, ?_, ?_⟩
  · intro e
    have he := countP_eraseIdx (fun x => decide (x = e)) c.inFlight w (b, fid) hin
    show countEntry e ((c.queue ++ [(b, fid)]) ++ c.inFlight.eraseIdx w)
      = countEntry e (c.queue ++ c.inFlight)
    unfold countEntry
    rw [List.countP_append, List.countP_append, List.countP_append]
    simp only [List.countP_cons, List.countP_nil, decide_eq_true_eq] at he ⊢
    omega
  · intro c3 st hst hok
    unfold stepCommitOk at hok
    simp only [hin, hst] at hok
    simp only [Option.some.injEq] at hok
    subst hok
    show lookupKey (updKey c.processing_status fid incStatus) fid = some (incStatus st)
    rw [lookupKey_updKey_self, hst]
    rfl

/-- A worker holding a dequeued batch for the registered job of `wEnq`. -/
def wHeld : Config :=
  { processing_status := [("a.csv_1", initialStatus "a.csv" 1)], queue := [],
    unfinished := 1, inFlight := [([sampleRecord], "a.csv_1")], committed := [],
    sleeps := [],
    producers := [{ fileId := "a.csv_1", filename := "a.csv", total := 1, chunks := [], stage := Stage.enqueuing }] }

/-- `wHeld` after a failed write: same batch re-enqueued, backoff logged. -/
def wRetried : Config :=
  { processing_status := [("a.csv_1", initialStatus "a.csv" 1)],
    queue := [([sampleRecord], "a.csv_1")],
    unfinished := 1, inFlight := [], committed := [], sleeps := [1],
    producers := [{ fileId := "a.csv_1", filename := "a.csv", total := 1, chunks := [], stage := Stage.enqueuing }] }

/-- Witness for C7 at a concrete failed write. -/
theorem C7_write_failure_requeues_witness :
    wHeld.inFlight[0]? = some ([sampleRecord], "a.csv_1") ∧
    stepCommitFail 0 wHeld = some wRetried ∧
    (wRetried.queue = wHeld.queue ++ [([sampleRecord], "a.csv_1")] ∧
      wRetried.inFlight = wHeld.inFlight.eraseIdx 0 ∧
      wRetried.processing_status = wHeld.processing_status ∧
      wRetried.committed = wHeld.committed ∧
      wRetried.sleeps = wHeld.sleeps ++ [1] ∧
      (∀ e : Entry, countEntry e (wRetried.queue ++ wRetried.inFlight)
        = countEntry e (wHeld.queue ++ wHeld.inFlight)) ∧
      (∀ c3 st, lookupKey wHeld.processing_status "a.csv_1" = some st →
        stepCommitOk 0 wHeld = some c3 →
        lookupKey c3.processing_status "a.csv_1" = some (incStatus st))) :=
  ⟨by decide, by decide,
    C7_write_failure_requeues wHeld wRetried 0 [sampleRecord] "a.csv_1"
      (by decide) (by decide)⟩

/-- `wEnq` after the no-join producer runs its final line: the job is marked
completed while its only batch is still sitting in the queue. -/
def wNoJoinDone : Config :=
  { processing_status := [("a.csv_1", { filename := "a.csv", total_chunks := 1, processed_chunks := 0, progress := 0, status := JobState.completed, error := none })],
    queue := [([sampleRecord], "a.csv_1")],
    unfinished := 1, inFlight := [], committed := [], sleeps := [],
    producers := [{ fileId := "a.csv_1", filename := "a.csv", total := 1, chunks := [], stage := Stage.finished }] }

/-- Claim C1, checked against the code: in the `app/services/csv_processor.py`
variant (`await worker_pool.queue.join()` commented out, `useJoin = false`) a
reachable run marks the job `completed` while `processed_chunks = 0 <
total_chunks = 1` and its batch is still enqueued and uncommitted; in the
`app/main.py` variant (`useJoin = true`) the same final step is blocked until
the queue's `unfinished` counter reaches zero. -/
theorem C1_completed_with_batch_still_enqueued :
    run false wInit [Action.register 0, Action.enqueue 0, Action.finish 0]
      = some wNoJoinDone ∧
    lookupKey wNoJoinDone.processing_status "a.csv_1"
      = some { filename := "a.csv", total_chunks := 1, processed_chunks := 0, progress := 0, status := JobState.completed, error := none } ∧
    wNoJoinDone.queue = [([sampleRecord], "a.csv_1")] ∧
    wNoJoinDone.committed = [] ∧
    step true (Action.finish 0) wEnq = none := by
  refine ⟨by decide, by decide, by decide, by decide, by decide⟩

/-- A worker holding a batch whose `file_id` is not in `processing_status`. -/
def wGhost : Config :=
  { processing_status := [], queue := [], unfinished := 1,
    inFlight := [([sampleRecord], "ghost.csv_9")], committed := [], sleeps := [],
    producers := [] }

/-- `wGhost` after the worker's write commits: the unguarded `logging.info`
line raises `KeyError`, so the except branch re-enqueues the already-committed
batch after a backoff. -/
def wGhostAfter : Config :=
  { processing_status := [], queue := [([sampleRecord], "ghost.csv_9")],
    unfinished := 1, inFlight := [], committed := [([sampleRecord], "ghost.csv_9")],
    sleeps := [1], producers := [] }

/-- Claim C8, checked against the code: when a committed batch carries an
unknown `file_id`, the registry is left unchanged (as claimed), but the worker
does not proceed normally: the `logging.info` line after the guarded update
indexes `processing_status[file_id]` unconditionally, raises `KeyError`, and
the except branch sleeps and re-enqueues the batch that was already committed,
so it will be written again. -/
theorem C8_unknown_jobId_requeues_committed_batch :
    lookupKey wGhost.processing_status "ghost.csv_9" = none ∧
    stepCommitOk 0 wGhost = some wGhostAfter ∧
    wGhostAfter.processing_status = wGhost.processing_status ∧
    wGhostAfter.queue = [([sampleRecord], "ghost.csv_9")] ∧
    wGhostAfter.committed = [([sampleRecord], "ghost.csv_9")] ∧
    wGhostAfter.sleeps = [1] := by
  refine ⟨by decide, by decide, by decide, by decide, by decide, by decide⟩

/-- Initial configuration for a header-only upload: zero decoded records. -/
def wEmptyInit : Config :=
  { processing_status := [], queue := [], unfinished := 0, inFlight := [],
    committed := [], sleeps := [],
    producers := [{ fileId := "empty.csv_1", filename := "empty.csv", total := totalChunks 0 CHUNK_SIZE, chunks := chunksOf CHUNK_SIZE ([] : List Record), stage := Stage.toRegister }] }

/-- Terminal configuration of the header-only run. -/
def wEmptyDone : Config :=
  { processing_status := [("empty.csv_1", { filename := "empty.csv", total_chunks := 0, processed_chunks := 0, progress := 0, status := JobState.completed, error := none })],
    queue := [], unfinished := 0, inFlight := [], committed := [], sleeps := [],
    producers := [{ fileId := "empty.csv_1", filename := "empty.csv", total := 0, chunks := [], stage := Stage.finished }] }

/-- Claim C10: a file that decodes to zero records yields `total_chunks = 0`,
enqueues no batch, and the job ends `completed` with `processed_chunks = 0` and
`progress` still `0` — the worker's `(processed / total) * 100` recomputation
is never executed for it (no batch ever carries its job id), so no division by
zero occurs. -/
theorem C10_empty_input_completes_with_zero_batches :
    totalChunks 0 CHUNK_SIZE = 0 ∧
    chunksOf CHUNK_SIZE ([] : List Record) = [] ∧
    run true wEmptyInit [Action.register 0, Action.finish 0] = some wEmptyDone ∧
    lookupKey wEmptyDone.processing_status "empty.csv_1"
      = some { filename := "empty.csv", total_chunks := 0, processed_chunks := 0, progress := 0, status := JobState.completed, error := none } ∧
    wEmptyDone.queue = [] ∧ wEmptyDone.committed = [] ∧ wEmptyDone.sleeps = [] := by
  refine ⟨by decide, by decide, by decide, by decide, by decide, by decide, by decide⟩

/-- Abstract characterisation of one uploaded file, by where its decoding
fails: `badUtf8` — `file_content.decode('utf-8')` raises (before the `try`
block); `badParse` — the first `pd.read_csv(file_stream)` raises (inside the
`try`, before the status entry is created); `rowError n pre msg` — the full
read succeeded with `n` rows, the job was registered, and a row access (e.g. a
missing required column) raises inside the chunk loop after `pre` chunks were
enqueued; `rows` — clean decode. -/
inductive CsvInput
  | badUtf8 (msg : String)
  | badParse (msg : String)
  | rowError (rowCount : Nat) (pre : List Batch) (msg : String)
  | rows (records : List Record)
deriving DecidableEq

/-- Enqueue a list of chunks in order; `none` when the bounded queue would
overflow with no worker draining it (the producer suspends). -/
def enqueueAll : List Batch → String → List Entry → Option (List Entry)
  | [], _, q => some q
  | b :: bs, fid, q =>
    if q.length < MAX_QUEUE_SIZE then enqueueAll bs fid (q ++ [(b, fid)])
    else none

/-- Sequential semantics of `process_csv_async` from
`app/services/csv_processor.py`, for one producer running with no worker
interleaving (the interleaved semantics is `step`/`run`).  Returns the final
registry and queue, and `some msg` when an exception escapes the coroutine —
the endpoint launches it with `asyncio.create_task`, so the caller never
observes that exception.  On `badUtf8` the failure happens before the `try`
block: nothing is registered and no state is marked.  On `badParse` the except
handler evaluates `processing_status[file_id]["status"] = "failed"` while the
key was never created, so the handler itself raises `KeyError` (unless the key
already happens to exist from an earlier run).  On `rowError` the job exists
and is marked failed with the error recorded.  On `rows` every chunk is
enqueued and the status is set to `completed` (the services variant does not
wait for the queue to drain). -/
def process_csv_async (fileId filename : String) (input : CsvInput)
    (reg : List (String × JobStatus)) (queue : List Entry) :
    Option ((List (String × JobStatus)) × List Entry × Option String) :=
  match input with
  | CsvInput.badUtf8 msg => some (reg, queue, some msg)
  | CsvInput.badParse msg =>
    if (lookupKey reg fileId).isSome then
      some (updKey (updKey reg fileId (fun st => { st with status := JobState.failed })) fileId (fun st => { st with error := some msg }), queue, some msg)
    else
      some (reg, queue, some ("KeyError: " ++ fileId))
  | CsvInput.rowError n pre msg =>
    let reg1 := setKey reg fileId (initialStatus filename (totalChunks n CHUNK_SIZE))
    match enqueueAll pre fileId queue with
    | none => none
    | some q1 =>
      some (updKey (updKey reg1 fileId (fun st => { st with status := JobState.failed })) fileId (fun st => { st with error := some msg }), q1, some msg)
  | CsvInput.rows records =>
    let reg1 := setKey reg fileId
      (initialStatus filename (totalChunks records.length CHUNK_SIZE))
    match enqueueAll (chunksOf CHUNK_SIZE records) fileId queue with
    | none => none
    | some q1 =>
      some (updKey reg1 fileId (fun st => { st with status := JobState.completed }), q1, none)

/-- A registry and queue holding another job's state and pending batch. -/
def otherReg : List (String × JobStatus) := [("other.csv_3", initialStatus "other.csv" 2)]

def otherQueue : List Entry := [([sampleRecord], "other.csv_3")]

/-- The registry after a post-registration decode failure of `bad.csv_5`. -/
def wC2regF : List (String × JobStatus) :=
  [("other.csv_3", initialStatus "other.csv" 2),
    ("bad.csv_5", { filename := "bad.csv", total_chunks := 1, processed_chunks := 0, progress := 0, status := JobState.failed, error := some "KeyError: FirstName" })]

/-- Claim C2, checked against the code: a UTF-8 decode failure escapes before
the `try` block, so no job state is created or marked `failed` (contradicting
the claim), and a CSV tokenization failure raises `KeyError` inside the except
handler itself, again leaving no `failed` state; in both cases the registry
entry and the enqueued batch of the other job are untouched, and the escaping
exception stays inside the fire-and-forget task.  Only a failure raised after
registration (e.g. a missing required column) is marked `failed` with the
error recorded, as the claim describes. -/
theorem C2_pre_registration_decode_failure_unmarked :
    process_csv_async "bad.csv_5" "bad.csv" (CsvInput.badUtf8 "invalid continuation byte") otherReg otherQueue
      = some (otherReg, otherQueue, some "invalid continuation byte") ∧
    process_csv_async "bad.csv_5" "bad.csv" (CsvInput.badParse "Error tokenizing data") otherReg otherQueue
      = some (otherReg, otherQueue, some ("KeyError: " ++ "bad.csv_5")) ∧
    lookupKey otherReg "bad.csv_5" = none ∧
    process_csv_async "bad.csv_5" "bad.csv" (CsvInput.rowError 1 [] "KeyError: FirstName") otherReg otherQueue
      = some (wC2regF, otherQueue, some "KeyError: FirstName") ∧
    lookupKey wC2regF "bad.csv_5"
      = some { filename := "bad.csv", total_chunks := 1, processed_chunks := 0, progress := 0, status := JobState.failed, error := some "KeyError: FirstName" } ∧
    lookupKey wC2regF "other.csv_3" = some (initialStatus "other.csv" 2) := by
  refine ⟨by decide, by decide, by decide, by decide, by decide, by decide⟩

/-- `file_id = file.filename + "_" + str(id(file_content))`: `id(file_content)`
is the CPython object identity of the freshly read bytes object — a token
assigned by the runtime, not derived from the file bytes.  The token is
modelled as a `Nat` parameter supplied by the environment. -/
def file_id (filename : String) (token : Nat) : String :=
  filename ++ "_" ++ Nat.repr token

/-- State visible to the HTTP endpoint: the status registry, the work queue,
and the background tasks scheduled with `asyncio.create_task`. -/
structure ApiState where
  processing_status : List (String × JobStatus)
  queue : List Entry
  tasks : List (String × String × CsvInput)
deriving DecidableEq

/-- Python `filename.endswith(suffix)`: suffix test on the character
sequence (written out so that it evaluates inside the kernel). -/
def endsWith (s suff : String) : Bool :=
  List.isSuffixOf suff.data s.data

/-- `upload_csv` from `app/api/v1/endpoints/user.py`: reject a filename that
does not end in `.csv` with a 400 before reading the body or touching any
state; otherwise read the body, compute the file id, schedule
`process_csv_async` in the background, and return the file id immediately. -/
def upload_csv (filename : String) (token : Nat) (content : CsvInput)
    (s : ApiState) : Except String String × ApiState :=
  if endsWith filename ".csv" then
    (Except.ok (file_id filename token),
      { s with tasks := s.tasks ++ [(file_id filename token, filename, content)] })
  else
    (Except.error "Invalid file type. Please upload a CSV file.", s)

/-- Claim C5: for every filename that does not end in `.csv`, ingest fails
synchronously with the invalid-file-type error and the state is unchanged: no
registry entry is created, no batch is enqueued, no background task is
scheduled. -/
theorem C5_invalid_extension_rejected (filename : String) (token : Nat)
    (content : CsvInput) (s : ApiState) (h : ¬ endsWith filename ".csv") :
    upload_csv filename token content s
      = (Except.error "Invalid file type. Please upload a CSV file.", s) := by
  unfold upload_csv
  rw [if_neg (by simpa using h)]

/-- Witness for C5 at a concrete non-CSV filename. -/
theorem C5_invalid_extension_rejected_witness :
    ¬ (endsWith "data.txt" ".csv") ∧
    upload_csv "data.txt" 7 (CsvInput.rows []) { processing_status := [], queue := [], tasks := [] }
      = (Except.error "Invalid file type. Please upload a CSV file.",
        { processing_status := [], queue := [], tasks := [] }) :=
  ⟨by decide,
    C5_invalid_extension_rejected "data.txt" 7 (CsvInput.rows [])
      { processing_status := [], queue := [], tasks := [] } (by decide)⟩

/-- One ingest run: the uploaded filename, the raw bytes of the body, and the
object-identity token the runtime assigns to the bytes object. -/
structure IngestRun where
  filename : String
  content : List Nat
  token : Nat
deriving DecidableEq

/-- The job id computed for a run; it depends on the filename and the identity
token only, never on the bytes. -/
def runFileId (r : IngestRun) : String := file_id r.filename r.token

/-- Counterexample to claim C9 as stated: two runs with the same filename and
byte-identical content but different identity tokens get different job ids, so
the job id is not a function of (filename, content); and two runs with the
same filename and token but different content collide. -/
theorem C9_counterexample :
    ¬ (∀ r1 r2 : IngestRun, r1.filename = r2.filename → r1.content = r2.content →
        runFileId r1 = runFileId r2) ∧
    ∃ s1 s2 : IngestRun, s1.filename = s2.filename ∧ s1.content ≠ s2.content ∧
      runFileId s1 = runFileId s2 := by
  constructor
  · intro hall
    have h12 := hall ⟨"a.csv", [1, 2], 140⟩ ⟨"a.csv", [1, 2], 141⟩ rfl rfl
    exact absurd h12 (by decide)
  · exact ⟨⟨"a.csv", [1], 140⟩, ⟨"a.csv", [2], 140⟩, rfl, by decide, rfl⟩

/-- Claim C9 amended: the job id is `filename + "_" + str(token)` where the
token is the runtime identity of the content object, not a function of the
bytes; it is deterministic in (filename, token), and content plays no role. -/
theorem C9_amended_token_determinism (r1 r2 : IngestRun)
    (hf : r1.filename = r2.filename) (ht : r1.token = r2.token) :
    runFileId r1 = runFileId r2 ∧
    runFileId r1 = r1.filename ++ "_" ++ Nat.repr r1.token := by
  refine ⟨?_, rfl⟩
  unfold runFileId file_id
  rw [hf, ht]

/-- Witness for the amended C9: same filename and token, different bytes. -/
theorem C9_amended_token_determinism_witness :
    (⟨"a.csv", [1], 5⟩ : IngestRun).filename = (⟨"a.csv", [2], 5⟩ : IngestRun).filename ∧
    (⟨"a.csv", [1], 5⟩ : IngestRun).token = (⟨"a.csv", [2], 5⟩ : IngestRun).token ∧
    (runFileId ⟨"a.csv", [1], 5⟩ = runFileId ⟨"a.csv", [2], 5⟩ ∧
      runFileId ⟨"a.csv", [1], 5⟩ = "a.csv" ++ "_" ++ Nat.repr 5) :=
  ⟨rfl, rfl, C9_amended_token_determinism ⟨"a.csv", [1], 5⟩ ⟨"a.csv", [2], 5⟩ rfl rfl⟩

end FastApiCsv
